import Mathlib

/-!
Verification of the wire-protocol state machine of the online file-sharing
application (`file_transfer_protocol_v1.py`).

Modelling conventions:
* Text and wire data are byte sequences, `List Nat` (each element a byte value).
  Python's `bytes.decode()/str.encode()` round-trip is modelled as the identity
  on byte sequences; `str.strip()` becomes `stripBytes`, which removes leading
  and trailing ASCII whitespace bytes.
* The filesystem under the shared root is a finite map from full path (byte
  sequence) to file content, represented as an association list.  `os.path.join`,
  `os.path.exists`, `os.path.getsize`, `open/write`, `os.rename`, `os.remove`
  and `os.listdir` become operations on that map.
* A TCP peer is modelled by the byte sequence it sends before closing the
  connection; `socket.recv` never returns more than requested and returns
  nothing once that sequence is exhausted, so `recvall(sock, n)` returns the
  first `min n remaining` bytes.  Chunk boundaries are semantically invisible.
* One iteration of the `handle_client` loop (read one command, handle it) is
  the step function `serverStep`: it consumes a prefix of the input stream and
  yields the updated filesystem, the bytes written back to the peer, and either
  the remaining stream (loop continues, awaiting the next command) or a closed
  session.
-/

/-- Wire data and file contents: sequences of byte values. -/
abbrev Bytes := List Nat

/-- Big-endian fixed-width encoding, `struct.pack("!I", ·)` for `w = 4` and
`struct.pack("!Q", ·)` for `w = 8`: most significant byte first. -/
def packBE : Nat → Nat → Bytes
  | 0, _ => []
  | w + 1, n => (n / 256 ^ w % 256) :: packBE w n

/-- Big-endian decoding, `struct.unpack("!I", ·)` / `struct.unpack("!Q", ·)`. -/
def unpackBE (bs : Bytes) : Nat :=
  bs.foldl (fun acc b => acc * 256 + b) 0

/-- ASCII whitespace bytes, the characters removed by `str.strip()` on
ASCII text. -/
def isSpaceByte (b : Nat) : Bool :=
  b == 9 || b == 10 || b == 11 || b == 12 || b == 13 || b == 32

/-- `str.strip()`: drop leading and trailing whitespace. -/
def stripBytes (bs : Bytes) : Bytes :=
  ((bs.dropWhile isSpaceByte).reverse.dropWhile isSpaceByte).reverse

/-- The filesystem beneath (and, absent any traversal check, outside) the
shared root: full path ↦ file content. -/
abbrev Fs := List (Bytes × Bytes)

/-- Path lookup: `none` models `os.path.exists` returning false. -/
def Fs.lookup : Fs → Bytes → Option Bytes
  | [], _ => none
  | (k, v) :: t, p => if k = p then some v else Fs.lookup t p

/-- `os.remove` (no-op when absent, matching the guarded removal in the code). -/
def Fs.erase : Fs → Bytes → Fs
  | [], _ => []
  | (k, v) :: t, p => if k = p then Fs.erase t p else (k, v) :: Fs.erase t p

/-- `open(path, "wb")` followed by writing `v`: truncate/create, then the
bytes written so far are the file's content. -/
def Fs.write (fs : Fs) (p : Bytes) (v : Bytes) : Fs :=
  (p, v) :: fs.erase p

/-- `os.rename(old, new)`: atomic promotion; the content moves, overwriting
any file at `new`. -/
def Fs.rename (fs : Fs) (old new : Bytes) : Fs :=
  match fs.lookup old with
  | none => fs
  | some v => (fs.erase old).write new v

/-- `os.path.join(root, name)` for a root with no trailing slash: an absolute
`name` replaces the root, otherwise the name is appended after a slash. -/
def pathJoin (root name : Bytes) : Bytes :=
  match name with
  | 47 :: _ => name
  | _ => root ++ 47 :: name

/-- The immediate child name a key under `root` contributes to `os.listdir`:
`some n` when the key is `root ++ "/" ++ n` with `n` nonempty and slash-free. -/
def childName (root k : Bytes) : Option Bytes :=
  if k.take (root.length + 1) = root ++ [47] ∧
      k.drop (root.length + 1) ≠ [] ∧ ¬ 47 ∈ k.drop (root.length + 1)
  then some (k.drop (root.length + 1))
  else none

/-- `os.listdir(shared_dir)`: the names of the entries directly under the root. -/
def listdir (fs : Fs) (root : Bytes) : List Bytes :=
  fs.filterMap fun e => childName root e.1

/-- `"\n".join(files)`. -/
def joinNewline : List Bytes → Bytes
  | [] => []
  | [x] => x
  | x :: y :: xs => x ++ 10 :: joinNewline (y :: xs)

/-- The `".part"` suffix of the staging path used by PUT. -/
def partSuffix : Bytes := [46, 112, 97, 114, 116]

/-- `recvall(sock, n)`: loop `recv` until `n` bytes are gathered or the peer
closes; on a stream holding `stream` bytes before close this returns the first
`min n stream.length` bytes, paired with the rest of the stream. -/
def recvall (stream : Bytes) (n : Nat) : Bytes × Bytes :=
  (stream.take n, stream.drop n)

/-- Outcome of one iteration of the `handle_client` loop: either the session
continues (updated files, bytes sent to the peer, remaining input) or the
loop exits (`break`), closing the connection. -/
inductive StepResult where
  | cont (fs : Fs) (out : Bytes) (rest : Bytes)
  | closed (fs : Fs) (out : Bytes)
deriving DecidableEq

/-- The bytes a step sent to the peer. -/
def StepResult.out : StepResult → Bytes
  | .cont _ o _ => o
  | .closed _ o => o

/-- Whether the step left the session awaiting the next command. -/
def StepResult.isCont : StepResult → Bool
  | .cont _ _ _ => true
  | .closed _ _ => false

/-- The PUT payload phase: the staging file is (re)written with the received
bytes, then renamed to the final path exactly when the byte count matches the
declared size, and removed otherwise. -/
def putApply (fs : Fs) (filePath : Bytes) (filesize : Nat) (data : Bytes) : Fs :=
  let temp := filePath ++ partSuffix
  let fs1 := fs.write temp data
  if data.length = filesize then fs1.rename temp filePath else fs1.erase temp

/-- The GET branch of `handle_client`: a missing file yields an 8-byte zero
size header and no payload; an existing file yields its size header followed
by its bytes.  Either way the loop continues. -/
def handleGet (fs : Fs) (filePath : Bytes) (r2 : Bytes) : StepResult :=
  match fs.lookup filePath with
  | none => .cont fs (packBE 8 0) r2
  | some content => .cont fs (packBE 8 content.length ++ content) r2

/-- The PUT branch of `handle_client` after the filename: read the 8-byte size
(truncation breaks the loop), then stream at most `filesize` bytes into the
staging file and promote or discard it.  No response bytes are sent. -/
def handlePut (fs : Fs) (filePath : Bytes) (r2 : Bytes) : StepResult :=
  let sizeBytes := (recvall r2 8).1
  if sizeBytes.length < 8 then .closed fs []
  else
    let filesize := unpackBE sizeBytes
    let r3 := (recvall r2 8).2
    let data := r3.take filesize
    .cont (putApply fs filePath filesize data) [] (r3.drop filesize)

/-- One iteration of the `handle_client` loop: read the command byte (empty
read closes the session), then dispatch.  LIST sends the 4-byte length-prefixed
listing; GET/PUT read the 4-byte filename length and the filename (short reads
break the loop), strip it, join it under the root, and dispatch; any other
command byte is only reported and the loop continues. -/
def serverStep (root : Bytes) (fs : Fs) (input : Bytes) : StepResult :=
  match input with
  | [] => .closed fs []
  | cmd :: rest =>
    if cmd = 0 then
      let listing := joinNewline (listdir fs root)
      .cont fs (packBE 4 listing.length ++ listing) rest
    else if cmd = 1 ∨ cmd = 2 then
      let lenBytes := (recvall rest 4).1
      if lenBytes.length < 4 then .closed fs []
      else
        let nameLen := unpackBE lenBytes
        let r1 := (recvall rest 4).2
        let filenameBytes := (recvall r1 nameLen).1
        if filenameBytes.length < nameLen then .closed fs []
        else
          let r2 := (recvall r1 nameLen).2
          let filePath := pathJoin root (stripBytes filenameBytes)
          if cmd = 1 then handleGet fs filePath r2
          else handlePut fs filePath r2
    else
      .cont fs [] rest

/-- The exact service-discovery probe text, `"SERVICE DISCOVERY"`. -/
def probeBytes : Bytes :=
  [83, 69, 82, 86, 73, 67, 69, 32, 68, 73, 83, 67, 79, 86, 69, 82, 89]

/-- One iteration of `udp_listener`: the datagrams sent back in response to one
received datagram.  The reply — the configured identity string — is sent iff
the stripped text equals the probe. -/
def udpStep (serviceName datagram : Bytes) : List Bytes :=
  if stripBytes datagram = probeBytes then [serviceName] else []

/-- Outcome of `FileSharingClient.get` as far as the protocol is concerned. -/
inductive GetOutcome where
  | errHeader
  | notFound
  | downloaded (data : Bytes)
  | incomplete
deriving DecidableEq

/-- `FileSharingClient.get` applied to the server's response bytes: read the
8-byte size (short read is an error), report "not found" on a zero size,
otherwise stream up to `filesize` payload bytes. -/
def clientGet (response : Bytes) : GetOutcome :=
  let sizeBytes := (recvall response 8).1
  if sizeBytes.length < 8 then .errHeader
  else
    let filesize := unpackBE sizeBytes
    if filesize = 0 then .notFound
    else
      let data := ((recvall response 8).2).take filesize
      if data.length = filesize then .downloaded data else .incomplete

/-- POSIX-style component split of a path on the slash byte. -/
def splitSlashAux : Bytes → Bytes → List Bytes
  | [], acc => [acc.reverse]
  | 47 :: t, acc => acc.reverse :: splitSlashAux t []
  | b :: t, acc => splitSlashAux t (b :: acc)

/-- Split a path into its slash-separated components. -/
def splitSlash (p : Bytes) : List Bytes := splitSlashAux p []

/-- POSIX resolution of an absolute path: empty and `"."` components vanish,
`".."` removes the previous component.  Used only to state where a joined
path actually points; the program itself performs no such check. -/
def resolvePath (p : Bytes) : List Bytes :=
  (splitSlash p).foldl
    (fun acc c =>
      if c = [] ∨ c = [46] then acc
      else if c = [46, 46] then acc.dropLast
      else acc ++ [c]) []

/-- `p` resolves strictly inside the directory `root`: the resolved root is a
proper prefix of the resolved path. -/
def insideRoot (root p : Bytes) : Prop :=
  resolvePath root ≠ resolvePath p ∧
    (resolvePath p).take (resolvePath root).length = resolvePath root

instance (root p : Bytes) : Decidable (insideRoot root p) := by
  unfold insideRoot; infer_instance

/-! ### Basic lemmas about the codec and the filesystem model -/

theorem packBE_length (w n : Nat) : (packBE w n).length = w := by
  induction w generalizing n with
  | zero => rfl
  | succ w ih => simp [packBE, ih]

theorem unpackBE_foldl (bs : Bytes) (a : Nat) :
    bs.foldl (fun acc b => acc * 256 + b) a =
      a * 256 ^ bs.length + bs.foldl (fun acc b => acc * 256 + b) 0 := by
  induction bs generalizing a with
  | nil => simp
  | cons b t ih =>
    simp only [List.foldl_cons, List.length_cons, Nat.zero_mul, Nat.zero_add]
    rw [ih (a * 256 + b), ih b]
    ring

theorem unpackBE_packBE (w n : Nat) : unpackBE (packBE w n) = n % 256 ^ w := by
  induction w generalizing n with
  | zero => simp [unpackBE, packBE, Nat.mod_one]
  | succ w ih =>
    have h := unpackBE_foldl (packBE w n) (n / 256 ^ w % 256)
    have hlen : (packBE w n).length = w := packBE_length w n
    have hmul : 256 ^ w * 256 = 256 ^ (w + 1) := by rw [pow_succ]
    calc unpackBE (packBE (w + 1) n)
        = (n / 256 ^ w % 256) * 256 ^ w + unpackBE (packBE w n) := by
          simpa [unpackBE, packBE, hlen] using h
      _ = (n / 256 ^ w % 256) * 256 ^ w + n % 256 ^ w := by rw [ih]
      _ = n % 256 ^ w + 256 ^ w * (n / 256 ^ w % 256) := by ring
      _ = n % (256 ^ w * 256) := (Nat.mod_mul).symm
      _ = n % 256 ^ (w + 1) := by rw [hmul]

theorem unpackBE_packBE_of_lt {w n : Nat} (h : n < 256 ^ w) :
    unpackBE (packBE w n) = n := by
  rw [unpackBE_packBE, Nat.mod_eq_of_lt h]

theorem Fs.lookup_write_self (fs : Fs) (p v : Bytes) :
    (fs.write p v).lookup p = some v := by
  simp [Fs.write, Fs.lookup]

theorem Fs.lookup_erase_self (fs : Fs) (p : Bytes) :
    (fs.erase p).lookup p = none := by
  induction fs with
  | nil => rfl
  | cons e t ih =>
    obtain ⟨k, v⟩ := e
    by_cases h : k = p <;> simp [Fs.erase, Fs.lookup, h, ih]

theorem Fs.lookup_erase_ne (fs : Fs) (p q : Bytes) (h : q ≠ p) :
    (fs.erase p).lookup q = fs.lookup q := by
  induction fs with
  | nil => rfl
  | cons e t ih =>
    obtain ⟨k, v⟩ := e
    by_cases hk : k = p
    · have hkq : k ≠ q := by rw [hk]; exact Ne.symm h
      simp [Fs.erase, hk, Fs.lookup, hkq, Ne.symm h, ih]
    · simp only [Fs.erase, if_neg hk]
      by_cases hq : k = q <;> simp [Fs.lookup, hq, ih]

theorem Fs.lookup_write_ne (fs : Fs) (p q v : Bytes) (h : q ≠ p) :
    (fs.write p v).lookup q = fs.lookup q := by
  simp [Fs.write, Fs.lookup, Ne.symm h, Fs.lookup_erase_ne fs p q h]

theorem ne_append_partSuffix (p : Bytes) : p ≠ p ++ partSuffix := by
  intro h
  have := congrArg List.length h
  simp [partSuffix] at this

theorem lookup_none_not_key (fs : Fs) (k : Bytes) (h : fs.lookup k = none) :
    ∀ e ∈ fs, e.1 ≠ k := by
  induction fs with
  | nil => intro e he; cases he
  | cons hd t ih =>
    obtain ⟨hk, hv⟩ := hd
    intro e he
    by_cases hkk : hk = k
    · simp [Fs.lookup, hkk] at h
    · rcases List.mem_cons.mp he with he | he
      · subst he; exact hkk
      · exact ih (by simpa [Fs.lookup, hkk] using h) e he

theorem childName_some (root k n : Bytes) (h : childName root k = some n) :
    k = root ++ 47 :: n := by
  unfold childName at h
  split at h
  · next hc =>
    obtain ⟨h1, _, _⟩ := hc
    have hk := (List.take_append_drop (root.length + 1) k).symm
    injection h with hn
    rw [hk, h1, ← hn]
    simp
  · exact absurd h (by simp)

theorem listdir_key (fs : Fs) (root n : Bytes) (h : n ∈ listdir fs root) :
    ∃ e ∈ fs, e.1 = root ++ 47 :: n := by
  obtain ⟨e, he, hc⟩ := List.mem_filterMap.mp h
  exact ⟨e, he, childName_some root e.1 n hc⟩

/-- Decoding a GET frame: command byte `1`, 4-byte big-endian filename length,
the filename, then whatever follows — `handle_client` reads the headers and
dispatches to the GET branch on the joined, stripped path. -/
theorem serverStep_getFrame (root : Bytes) (fs : Fs) (f tail : Bytes)
    (hf : f.length < 2 ^ 32) :
    serverStep root fs (1 :: (packBE 4 f.length ++ f ++ tail)) =
      handleGet fs (pathJoin root (stripBytes f)) tail := by
  have h4 : (packBE 4 f.length).length = 4 := packBE_length 4 f.length
  have hname : unpackBE (packBE 4 f.length) = f.length :=
    unpackBE_packBE_of_lt (by calc f.length < 2 ^ 32 := hf
                                _ = 256 ^ 4 := by norm_num)
  simp [serverStep, recvall, List.append_assoc, List.take_left' h4,
    List.drop_left' h4, h4, hname, List.take_left, List.drop_left]

/-- Decoding a PUT frame up to the filename: command byte `2`, 4-byte
big-endian filename length, the filename, then the size header and payload —
`handle_client` dispatches to the PUT branch on the joined, stripped path. -/
theorem serverStep_putFrame (root : Bytes) (fs : Fs) (f tail : Bytes)
    (hf : f.length < 2 ^ 32) :
    serverStep root fs (2 :: (packBE 4 f.length ++ f ++ tail)) =
      handlePut fs (pathJoin root (stripBytes f)) tail := by
  have h4 : (packBE 4 f.length).length = 4 := packBE_length 4 f.length
  have hname : unpackBE (packBE 4 f.length) = f.length :=
    unpackBE_packBE_of_lt (by calc f.length < 2 ^ 32 := hf
                                _ = 256 ^ 4 := by norm_num)
  simp [serverStep, recvall, List.append_assoc, List.take_left' h4,
    List.drop_left' h4, h4, hname, List.take_left, List.drop_left]

/-- Decoding the PUT size header: with the declared size below `2^64` the PUT
branch reads it, takes at most that many payload bytes from the stream, and
applies the stage-then-promote/discard step, sending nothing back. -/
theorem handlePut_frame (fs : Fs) (p : Bytes) (s : Nat) (tail : Bytes)
    (hs : s < 2 ^ 64) :
    handlePut fs p (packBE 8 s ++ tail) =
      .cont (putApply fs p s (tail.take s)) [] (tail.drop s) := by
  have h8 : (packBE 8 s).length = 8 := packBE_length 8 s
  have hsz : unpackBE (packBE 8 s) = s :=
    unpackBE_packBE_of_lt (by calc s < 2 ^ 64 := hs
                                _ = 256 ^ 8 := by norm_num)
  simp [handlePut, recvall, List.take_left' h8, List.drop_left' h8, h8, hsz]

/-- A completed PUT leaves exactly the sent bytes at the final path. -/
theorem lookup_put_complete (fs : Fs) (p b : Bytes) :
    (Fs.rename (Fs.write fs (p ++ partSuffix) b) (p ++ partSuffix) p).lookup p =
      some b := by
  unfold Fs.rename
  rw [Fs.lookup_write_self]
  exact Fs.lookup_write_self _ p b

/-- The filesystem while the PUT payload loop has written the first `k` of the
received bytes into the staging file (the staging file is truncated on open,
then grows chunk by chunk). -/
def putStaging (fs : Fs) (filePath data : Bytes) (k : Nat) : Fs :=
  fs.write (filePath ++ partSuffix) (data.take k)

/-- C1: during a PUT of filename `f` with declared size `s`, every
intermediate state of the payload loop (staging file holding the first `k`
received bytes) leaves the final path's content unchanged; the final path is
written (by the rename of the staging file) exactly when the number of
received bytes equals `s`, and the connection handler produces precisely this
stage-then-promote outcome. -/
theorem c1_put_atomic (root f tail : Bytes) (fs : Fs) (s k : Nat)
    (hf : f.length < 2 ^ 32) (hs : s < 2 ^ 64) :
    (putStaging fs (pathJoin root (stripBytes f)) (tail.take s) k).lookup
        (pathJoin root (stripBytes f)) =
      fs.lookup (pathJoin root (stripBytes f))
    ∧ (putApply fs (pathJoin root (stripBytes f)) s (tail.take s)).lookup
        (pathJoin root (stripBytes f)) =
      (if (tail.take s).length = s then some (tail.take s)
       else fs.lookup (pathJoin root (stripBytes f)))
    ∧ serverStep root fs (2 :: (packBE 4 f.length ++ f ++ (packBE 8 s ++ tail))) =
        .cont (putApply fs (pathJoin root (stripBytes f)) s (tail.take s)) []
          (tail.drop s) := by
  refine ⟨?_, ?_, ?_⟩
  · simp only [putStaging]
    exact Fs.lookup_write_ne fs _ _ _ (ne_append_partSuffix _)
  · by_cases hlen : (tail.take s).length = s
    · simp only [putApply, if_pos hlen, hlen]
      exact lookup_put_complete fs _ _
    · simp only [putApply, if_neg hlen]
      rw [Fs.lookup_erase_ne _ _ _ (ne_append_partSuffix _),
        Fs.lookup_write_ne _ _ _ _ (ne_append_partSuffix _)]
  · rw [serverStep_putFrame root fs f _ hf, handlePut_frame fs _ s tail hs]

theorem c1_put_atomic_witness :
    serverStep [] [] (2 :: (packBE 4 1 ++ [97] ++ (packBE 8 3 ++ [65, 66, 67]))) =
      .cont (putApply [] (pathJoin [] (stripBytes [97])) 3 ([65, 66, 67].take 3)) []
        ([65, 66, 67].drop 3)
    ∧ (putStaging [] (pathJoin [] (stripBytes [97])) ([65, 66, 67].take 3) 1).lookup
        (pathJoin [] (stripBytes [97])) =
      Fs.lookup [] (pathJoin [] (stripBytes [97])) :=
  ⟨(c1_put_atomic [] [97] [65, 66, 67] [] 3 1 (by norm_num) (by norm_num)).2.2,
   (c1_put_atomic [] [97] [65, 66, 67] [] 3 1 (by norm_num) (by norm_num)).1⟩

/-- C2: a PUT interrupted before the declared size `s` is reached (the peer
supplies only `tail`, with fewer than `s` bytes) leaves the final path's
content unchanged, removes the staging file, and the staging artifact is
invisible to a subsequent LIST of the root. -/
theorem c2_interrupted_put (root f tail : Bytes) (fs : Fs) (s : Nat)
    (hf : f.length < 2 ^ 32) (hs : s < 2 ^ 64) (hshort : tail.length < s) :
    serverStep root fs (2 :: (packBE 4 f.length ++ f ++ (packBE 8 s ++ tail))) =
      .cont (putApply fs (pathJoin root (stripBytes f)) s tail) [] []
    ∧ (putApply fs (pathJoin root (stripBytes f)) s tail).lookup
        (pathJoin root (stripBytes f)) = fs.lookup (pathJoin root (stripBytes f))
    ∧ (putApply fs (pathJoin root (stripBytes f)) s tail).lookup
        (pathJoin root (stripBytes f) ++ partSuffix) = none
    ∧ ∀ n ∈ listdir (putApply fs (pathJoin root (stripBytes f)) s tail) root,
        root ++ 47 :: n ≠ pathJoin root (stripBytes f) ++ partSuffix := by
  have hne : tail.length ≠ s := Nat.ne_of_lt hshort
  have htake : tail.take s = tail := List.take_of_length_le (le_of_lt hshort)
  have hdrop : tail.drop s = [] := List.drop_of_length_le (le_of_lt hshort)
  have hnone : (putApply fs (pathJoin root (stripBytes f)) s tail).lookup
      (pathJoin root (stripBytes f) ++ partSuffix) = none := by
    simp only [putApply, if_neg hne]
    exact Fs.lookup_erase_self _ _
  refine ⟨?_, ?_, hnone, ?_⟩
  · rw [serverStep_putFrame root fs f _ hf, handlePut_frame fs _ s tail hs,
      htake, hdrop]
  · simp only [putApply, if_neg hne]
    rw [Fs.lookup_erase_ne _ _ _ (ne_append_partSuffix _),
      Fs.lookup_write_ne _ _ _ _ (ne_append_partSuffix _)]
  · intro n hn heq
    obtain ⟨e, he, hkey⟩ := listdir_key _ _ _ hn
    exact lookup_none_not_key _ _ hnone e he (hkey.trans heq)

theorem c2_interrupted_put_witness :
    serverStep [] [] (2 :: (packBE 4 1 ++ [97] ++ (packBE 8 3 ++ [65]))) =
      .cont (putApply [] (pathJoin [] (stripBytes [97])) 3 [65]) [] []
    ∧ (putApply [] (pathJoin [] (stripBytes [97])) 3 [65]).lookup
        (pathJoin [] (stripBytes [97]) ++ partSuffix) = none :=
  ⟨(c2_interrupted_put [] [97] [65] [] 3 (by norm_num) (by norm_num) (by norm_num)).1,
   (c2_interrupted_put [] [97] [65] [] 3 (by norm_num) (by norm_num) (by norm_num)).2.2.1⟩

/-- C3: a completed PUT of filename `f` with payload `b` followed by a GET of
`f` returns an 8-byte size header equal to `b.length` and payload bytes
identical to `b`. -/
theorem c3_put_get_roundtrip (root f b : Bytes) (fs : Fs)
    (hf : f.length < 2 ^ 32) (hb : b.length < 2 ^ 64)
    (habsent : fs.lookup (pathJoin root (stripBytes f)) = none) :
    serverStep root fs (2 :: (packBE 4 f.length ++ f ++ (packBE 8 b.length ++ b))) =
      .cont ((fs.write (pathJoin root (stripBytes f) ++ partSuffix) b).rename
          (pathJoin root (stripBytes f) ++ partSuffix) (pathJoin root (stripBytes f)))
        [] []
    ∧ serverStep root
        ((fs.write (pathJoin root (stripBytes f) ++ partSuffix) b).rename
          (pathJoin root (stripBytes f) ++ partSuffix) (pathJoin root (stripBytes f)))
        (1 :: (packBE 4 f.length ++ f)) =
      .cont ((fs.write (pathJoin root (stripBytes f) ++ partSuffix) b).rename
          (pathJoin root (stripBytes f) ++ partSuffix) (pathJoin root (stripBytes f)))
        (packBE 8 b.length ++ b) [] := by
  constructor
  · rw [serverStep_putFrame root fs f _ hf, handlePut_frame fs _ b.length b hb]
    simp [putApply, List.take_length, List.drop_length]
  · have hget := serverStep_getFrame root
      ((fs.write (pathJoin root (stripBytes f) ++ partSuffix) b).rename
        (pathJoin root (stripBytes f) ++ partSuffix) (pathJoin root (stripBytes f)))
      f [] hf
    simp only [List.append_nil] at hget
    rw [hget]
    simp [handleGet, lookup_put_complete]

theorem c3_put_get_roundtrip_witness :
    serverStep [] []
        (2 :: (packBE 4 1 ++ [97] ++ (packBE 8 2 ++ [65, 66]))) =
      .cont (Fs.rename (Fs.write [] (pathJoin [] (stripBytes [97]) ++ partSuffix) [65, 66])
          (pathJoin [] (stripBytes [97]) ++ partSuffix)
          (pathJoin [] (stripBytes [97]))) [] []
    ∧ serverStep []
        (Fs.rename (Fs.write [] (pathJoin [] (stripBytes [97]) ++ partSuffix) [65, 66])
          (pathJoin [] (stripBytes [97]) ++ partSuffix)
          (pathJoin [] (stripBytes [97])))
        (1 :: (packBE 4 1 ++ [97])) =
      .cont (Fs.rename (Fs.write [] (pathJoin [] (stripBytes [97]) ++ partSuffix) [65, 66])
          (pathJoin [] (stripBytes [97]) ++ partSuffix)
          (pathJoin [] (stripBytes [97])))
        (packBE 8 2 ++ [65, 66]) [] := by
  have h := c3_put_get_roundtrip [] [97] [65, 66] [] (by norm_num) (by norm_num) rfl
  simpa using h

/-- C4: a GET naming a file absent under the shared root is answered with an
8-byte big-endian zero size header and no payload bytes, and the session
returns to awaiting the next command (the remaining input is left intact). -/
theorem c4_get_missing (root f tail : Bytes) (fs : Fs)
    (hf : f.length < 2 ^ 32)
    (habsent : fs.lookup (pathJoin root (stripBytes f)) = none) :
    serverStep root fs (1 :: (packBE 4 f.length ++ f ++ tail)) =
      .cont fs (packBE 8 0) tail
    ∧ packBE 8 0 = [0, 0, 0, 0, 0, 0, 0, 0] := by
  refine ⟨?_, rfl⟩
  rw [serverStep_getFrame root fs f tail hf]
  simp [handleGet, habsent]

theorem c4_get_missing_witness :
    serverStep [] [] (1 :: (packBE 4 1 ++ [97] ++ [0])) = .cont [] (packBE 8 0) [0]
    ∧ packBE 8 0 = [0, 0, 0, 0, 0, 0, 0, 0] :=
  c4_get_missing [] [97] [0] [] (by norm_num) rfl

/-- C5 as stated is false: after an unknown command byte (here `3`) the
session is not closed — the handler merely reports it and loops, and a
further command (here a LIST) is read and processed on the same connection. -/
theorem c5_counterexample :
    serverStep [] [] [3, 0] = .cont [] [] [0]
    ∧ serverStep [] [] [0] = .cont [] (packBE 4 0) [] :=
  ⟨rfl, rfl⟩

/-- C5 amended: on any command byte other than LIST (0), GET (1) and PUT (2),
the session reports the unknown command and returns to awaiting the next
command on the same connection; it is not closed, and further commands are
read. -/
theorem c5_unknown_command (root rest : Bytes) (fs : Fs) (cmd : Nat)
    (h0 : cmd ≠ 0) (h1 : cmd ≠ 1) (h2 : cmd ≠ 2) :
    serverStep root fs (cmd :: rest) = .cont fs [] rest := by
  simp [serverStep, h0, h1, h2]

theorem c5_unknown_command_witness :
    serverStep [] [] [255, 0] = .cont [] [] [0] :=
  c5_unknown_command [] [0] [] 255 (by norm_num) (by norm_num) (by norm_num)

/-- C6 as stated is false: at these concrete inputs a PUT that completes
successfully (payload `[65]` of declared size 1, stored at the final path)
and a PUT that fails (declared size 1, no payload before the peer closes)
both elicit zero response bytes from the server — no status text is sent,
and success is indistinguishable from failure on the wire. -/
theorem c6_counterexample :
    serverStep [] [] (2 :: (packBE 4 1 ++ [97] ++ (packBE 8 1 ++ [65]))) =
      .cont [([47, 97], [65])] [] []
    ∧ serverStep [] [] (2 :: (packBE 4 1 ++ [97] ++ packBE 8 1)) =
      .cont [] [] [] := by
  exact ⟨by decide, by decide⟩

/-- C6 amended: for every PUT exchange, completed or not, the server sends no
status bytes at all back to the client (the response is empty and the session
stays open); success and failure are not distinguished on the wire. -/
theorem c6_put_no_status (root f tail : Bytes) (fs : Fs) (s : Nat)
    (hf : f.length < 2 ^ 32) (hs : s < 2 ^ 64) :
    (serverStep root fs (2 :: (packBE 4 f.length ++ f ++ (packBE 8 s ++ tail)))).out = []
    ∧ (serverStep root fs
        (2 :: (packBE 4 f.length ++ f ++ (packBE 8 s ++ tail)))).isCont = true := by
  rw [serverStep_putFrame root fs f _ hf, handlePut_frame fs _ s tail hs]
  exact ⟨rfl, rfl⟩

theorem c6_put_no_status_witness :
    (serverStep [] [] (2 :: (packBE 4 1 ++ [97] ++ (packBE 8 1 ++ [65])))).out = []
    ∧ (serverStep [] [] (2 :: (packBE 4 1 ++ [97] ++ (packBE 8 1 ++ [65])))).isCont
        = true :=
  c6_put_no_status [] [97] [65] [] 1 (by norm_num) (by norm_num)

/-- C7 as stated is false: with shared root `"/srv/share"` the peer-supplied
filename `"../evil"` joins to `"/srv/share/../evil"`, which resolves to
`"/srv/evil"` — outside the root — yet the server performs the GET on that
path (serving the stored byte `99`) instead of rejecting it: no traversal
check exists. -/
theorem c7_counterexample :
    ¬ insideRoot [47, 115, 114, 118, 47, 115, 104, 97, 114, 101]
        (pathJoin [47, 115, 114, 118, 47, 115, 104, 97, 114, 101]
          (stripBytes [46, 46, 47, 101, 118, 105, 108]))
    ∧ serverStep [47, 115, 114, 118, 47, 115, 104, 97, 114, 101]
        [([47, 115, 114, 118, 47, 115, 104, 97, 114, 101, 47, 46, 46, 47,
            101, 118, 105, 108], [99])]
        (1 :: (packBE 4 7 ++ [46, 46, 47, 101, 118, 105, 108])) =
      .cont [([47, 115, 114, 118, 47, 115, 104, 97, 114, 101, 47, 46, 46, 47,
            101, 118, 105, 108], [99])]
        (packBE 8 1 ++ [99]) [] :=
  ⟨by decide, by decide⟩

/-- C7 amended: the server joins the peer-supplied filename directly beneath
the shared root with no normalization or containment check; even when the
joined path resolves outside the root (e.g. a filename with `..` components),
the filesystem operation is still performed on that escaping path — here a
GET serves the file stored outside the root. -/
theorem c7_no_traversal_check (root f content : Bytes) (fs : Fs)
    (hf : f.length < 2 ^ 32)
    (hesc : ¬ insideRoot root (pathJoin root (stripBytes f)))
    (hstored : fs.lookup (pathJoin root (stripBytes f)) = some content) :
    serverStep root fs (1 :: (packBE 4 f.length ++ f)) =
      .cont fs (packBE 8 content.length ++ content) [] := by
  have hget := serverStep_getFrame root fs f [] hf
  simp only [List.append_nil] at hget
  rw [hget]
  simp [handleGet, hstored]

theorem c7_no_traversal_check_witness :
    serverStep [47, 115, 114, 118, 47, 115, 104, 97, 114, 101]
        [([47, 115, 114, 118, 47, 115, 104, 97, 114, 101, 47, 46, 46, 47,
            101, 118, 105, 108], [99, 99])]
        (1 :: (packBE 4 ([46, 46, 47, 101, 118, 105, 108] : Bytes).length ++
          [46, 46, 47, 101, 118, 105, 108])) =
      .cont [([47, 115, 114, 118, 47, 115, 104, 97, 114, 101, 47, 46, 46, 47,
            101, 118, 105, 108], [99, 99])]
        (packBE 8 ([99, 99] : Bytes).length ++ [99, 99]) [] :=
  c7_no_traversal_check [47, 115, 114, 118, 47, 115, 104, 97, 114, 101]
    [46, 46, 47, 101, 118, 105, 108] [99, 99] _ (by norm_num) (by decide) (by decide)

/-- C8: `recvall` returns at most `n` bytes, exactly `n` when the peer sent at
least `n`, and everything available (fewer than `n`) when the peer closed
early; and a truncated read of the 4-byte filename-length header, of the
filename, or of the 8-byte PUT size header makes `handle_client` break out of
its loop — the session closes with the filesystem untouched and no response
bytes sent for that command. -/
theorem c8_exact_reads (stream hdr t f sz root : Bytes) (fs : Fs) (n L cmd : Nat) :
    (recvall stream n).1.length ≤ n
    ∧ (n ≤ stream.length → (recvall stream n).1.length = n)
    ∧ (stream.length < n →
        (recvall stream n).1 = stream ∧ (recvall stream n).1.length < n)
    ∧ ((cmd = 1 ∨ cmd = 2) → hdr.length < 4 →
        serverStep root fs (cmd :: hdr) = .closed fs [])
    ∧ ((cmd = 1 ∨ cmd = 2) → L < 2 ^ 32 → t.length < L →
        serverStep root fs (cmd :: (packBE 4 L ++ t)) = .closed fs [])
    ∧ (f.length < 2 ^ 32 → sz.length < 8 →
        serverStep root fs (2 :: (packBE 4 f.length ++ f ++ sz)) = .closed fs []) := by
  refine ⟨?_, ?_, ?_, ?_, ?_, ?_⟩
  · simp only [recvall, List.length_take]
    exact Nat.min_le_left _ _
  · intro h
    simp [recvall, List.length_take, Nat.min_eq_left h]
  · intro h
    have ht := List.take_of_length_le (le_of_lt h) (l := stream)
    exact ⟨by simp [recvall, ht], by simp [recvall, ht, h]⟩
  · intro hcmd hlen
    have h0 : ¬ cmd = 0 := by rcases hcmd with h | h <;> omega
    have hc : (hdr.take 4).length < 4 := by
      simp only [List.length_take]
      omega
    simp only [serverStep, recvall, h0, hcmd]
    simp [hc]
    exact fun hge => absurd hge (by omega)
  · intro hcmd hL ht
    have h0 : ¬ cmd = 0 := by rcases hcmd with h | h <;> omega
    have h4 := packBE_length 4 L
    have hu : unpackBE (packBE 4 L) = L :=
      unpackBE_packBE_of_lt (by calc L < 2 ^ 32 := hL
                                  _ = 256 ^ 4 := by norm_num)
    have hshort : (t.take L).length < L := by
      simp only [List.length_take]
      omega
    simp [serverStep, recvall, h0, hcmd, List.take_left' h4, List.drop_left' h4,
      h4, hu, hshort]
    exact fun hge => absurd hge (by omega)
  · intro hf hsz
    rw [serverStep_putFrame root fs f sz hf]
    have hc : (sz.take 8).length < 8 := by
      simp only [List.length_take]
      omega
    simp [handlePut, recvall, hc]
    omega

theorem c8_exact_reads_witness :
    (recvall [1, 2] 4).1.length ≤ 4
    ∧ serverStep [] [] [1, 9] = .closed [] []
    ∧ serverStep [] [] (2 :: (packBE 4 1 ++ [97] ++ [0])) = .closed [] [] :=
  ⟨(c8_exact_reads [1, 2] [9] [] [97] [0] [] [] 4 0 1).1,
   (c8_exact_reads [1, 2] [9] [] [97] [0] [] [] 4 0 1).2.2.2.1 (Or.inl rfl)
     (by norm_num),
   (c8_exact_reads [1, 2] [9] [] [97] [0] [] [] 4 0 1).2.2.2.2.2 (by norm_num)
     (by norm_num)⟩

/-- C9 as stated is false: the datagram `" SERVICE DISCOVERY"` (a leading
space, so not the exact probe text) still elicits the identity reply, because
the listener compares the datagram after `strip()`. -/
theorem c9_counterexample :
    (32 :: probeBytes) ≠ probeBytes
    ∧ udpStep [84] (32 :: probeBytes) = [[84]] :=
  ⟨by decide, by decide⟩

/-- C9 amended: the discovery responder answers a datagram with exactly one
reply — the configured identity string — iff the datagram's text equals
`"SERVICE DISCOVERY"` after stripping leading and trailing whitespace, and
sends nothing otherwise; it never sends more than one reply per datagram. -/
theorem c9_discovery (svc d : Bytes) :
    (stripBytes d = probeBytes → udpStep svc d = [svc])
    ∧ (stripBytes d ≠ probeBytes → udpStep svc d = [])
    ∧ (udpStep svc d).length ≤ 1 := by
  refine ⟨fun h => by simp [udpStep, h], fun h => by simp [udpStep, h], ?_⟩
  unfold udpStep
  split <;> simp

theorem c9_discovery_witness :
    udpStep [84] probeBytes = [[84]] ∧ udpStep [84] [120] = [] :=
  ⟨(c9_discovery [84] probeBytes).1 (by decide),
   (c9_discovery [84] [120]).2.1 (by decide)⟩

/-- C10: a GET of an existing zero-byte file is answered with the 8-byte zero
size header and no payload — byte-identical to the response for a missing
file — and the provided client, fed that response, reports "not found". -/
theorem c10_empty_vs_missing (root f : Bytes) (fs fsA : Fs)
    (hf : f.length < 2 ^ 32)
    (hempty : fs.lookup (pathJoin root (stripBytes f)) = some [])
    (habsent : fsA.lookup (pathJoin root (stripBytes f)) = none) :
    serverStep root fs (1 :: (packBE 4 f.length ++ f)) = .cont fs (packBE 8 0) []
    ∧ serverStep root fsA (1 :: (packBE 4 f.length ++ f)) =
        .cont fsA (packBE 8 0) []
    ∧ clientGet (packBE 8 0) = .notFound := by
  have hget1 := serverStep_getFrame root fs f [] hf
  have hget2 := serverStep_getFrame root fsA f [] hf
  simp only [List.append_nil] at hget1 hget2
  refine ⟨?_, ?_, by decide⟩
  · rw [hget1]
    simp [handleGet, hempty]
  · rw [hget2]
    simp [handleGet, habsent]

theorem c10_empty_vs_missing_witness :
    serverStep [] [([47, 97], [])] (1 :: (packBE 4 1 ++ [97])) =
      .cont [([47, 97], [])] (packBE 8 0) []
    ∧ serverStep [] [] (1 :: (packBE 4 1 ++ [97])) = .cont [] (packBE 8 0) []
    ∧ clientGet (packBE 8 0) = .notFound :=
  c10_empty_vs_missing [] [97] [([47, 97], [])] [] (by norm_num) (by decide) rfl
